import Mathlib

set_option maxHeartbeats 1000000

/-!
Shallow embedding of the two scripts of msabrysarhan/microGWASutils:
scripts/vep_highest_impact.py (loader, selector, index sort, renamer)
and scripts/annotate_vep_regenie.py (merger).

Dataframes are lists of rows; the pandas integer index is carried
explicitly as the first component of a pair where it matters.  Python
exceptions are modelled with Except / Option.
-/

/-- Python str.split(sep) for a single-character separator, on the
underlying character list (auxiliary: current piece accumulated reversed). -/
def py_split_aux (sep : Char) : List Char → List Char → List String
  | [], acc => [String.mk acc.reverse]
  | c :: cs, acc =>
      if c == sep then String.mk acc.reverse :: py_split_aux sep cs []
      else py_split_aux sep cs (c :: acc)

/-- Python str.split(sep) for a single-character separator. -/
def py_split (s : String) (sep : Char) : List String :=
  py_split_aux sep s.data []

/-- Python `c in s` for a single character. -/
def py_contains (s : String) (c : Char) : Bool :=
  s.data.contains c

/-- Python line.startswith('#') (vep_highest_impact.py line 27). -/
def py_startswith_hash (s : String) : Bool :=
  match s.data with
  | [] => false
  | c :: _ => c == '#'

/-- One VEP annotation row: the 14 fixed columns assigned at
vep_highest_impact.py lines 32-34; Extra is the dict parsed at line 37,
kept as the list of key/value pairs in insertion order. -/
structure Row where
  Uploaded_variation : String
  Location : String
  Allele : String
  Gene : String
  Feature : String
  Feature_type : String
  Consequence : String
  cDNA_position : String
  CDS_position : String
  Protein_position : String
  Amino_acids : String
  Codons : String
  Existing_variation : String
  Extra : List (String × String)
deriving Repr, DecidableEq

/-- Python dict(seq) over a list of split results: every element must be a
two-element sequence, otherwise ValueError (modelled as none). -/
def dict_of_pairs : List (List String) → Option (List (String × String))
  | [] => some []
  | [k, v] :: rest => (dict_of_pairs rest).map (fun d => (k, v) :: d)
  | _ :: _ => none

/-- Key membership in the Extra dict ('DISTANCE' in row['Extra']). -/
def dict_has_key (d : List (String × String)) (k : String) : Bool :=
  d.any (fun kv => kv.1 == k)

/-- Python dict lookup d[k]: the value of the last inserted pair with key k,
none when the key is absent (KeyError). -/
def dict_get (d : List (String × String)) (k : String) : Option String :=
  (d.reverse.find? (fun kv => kv.1 == k)).map Prod.snd

/-- vep_highest_impact.py line 37:
dict(item.split('=') for item in x.split(';') if '=' in item). -/
def parse_extra (x : String) : Option (List (String × String)) :=
  dict_of_pairs
    (((py_split x ';').filter (fun item => py_contains item '=')).map
      (fun item => py_split item '='))

/-- One data line of the de-commented file: read_csv with sep='\t' followed
by the 14-name column assignment (error when the count differs) and the
Extra parse of line 37 (error = the uncaught ValueError from dict). -/
def parse_vep_line (line : String) : Except String Row :=
  match py_split line '\t' with
  | [uv, loc, al, ge, fe, ft, cons, cdna, cds, pp, aa, co, ev, ex] =>
      match parse_extra ex with
      | some d => .ok ⟨uv, loc, al, ge, fe, ft, cons, cdna, cds, pp, aa, co, ev, d⟩
      | none => .error "ValueError: dictionary update sequence element has length other than 2"
  | _ => .error "ValueError: column count differs from the 14 assigned names"

/-- vep_highest_impact.py lines 23-43 (read_vep_annotation_file).  The file
system is a map from path to the list of lines; a missing path raises
FileNotFoundError, which the function catches: it prints
"File not found: {file_path}" and returns None.  The result pairs the
returned value with the lines printed to standard output; `.error` is an
exception escaping to the caller (read_csv on an all-comment file, a column
count other than 14, or the ValueError of the line-37 dict).  The transient
`.tmp` sibling file is modelled by filtering the comment lines directly. -/
def read_vep_annotation_file (fs : String → Option (List String)) (file_path : String) :
    Except String (Option (List Row) × List String) :=
  match fs file_path with
  | none => .ok (none, ["File not found: " ++ file_path])
  | some ls =>
      let data := ls.filter (fun l => !(py_startswith_hash l))
      if data.isEmpty then .error "EmptyDataError: No columns to parse from file"
      else (data.mapM parse_vep_line).map (fun rows => (some rows, []))

/-- The pandas RangeIndex: rows paired with their integer index label. -/
def enum_from (n : Nat) : List Row → List (Nat × Row)
  | [] => []
  | x :: xs => (n, x) :: enum_from (n + 1) xs

/-- group.loc[i]: the (first) row of the frame whose index label is i,
none when the label is absent (KeyError). -/
def locRow (g : List (Nat × Row)) (i : Nat) : Option Row :=
  (g.find? (fun p => p.1 == i)).map Prod.snd

/-- 'DISTANCE' in row['Extra'] (vep_highest_impact.py line 69). -/
def hasDistance (r : Row) : Bool :=
  dict_has_key r.Extra "DISTANCE"

/-- The inner for-loop of vep_highest_impact.py lines 68-71 over
group.iterrows(): rows appended before a break, the (index, row) pair left
bound by the last iteration (none when the loop body never ran), and the
threaded value of lowest_distance_idx, which the loop body never assigns. -/
def group_scan (lidx : Option Nat) :
    List (Nat × Row) → List (Nat × Row) × Option (Nat × Row) × Option Nat
  | [] => ([], none, lidx)
  | (i, r) :: rest =>
      if hasDistance r then
        match group_scan lidx rest with
        | (sel, none, lv) => (sel, some (i, r), lv)
        | (sel, some lr, lv) => (sel, some lr, lv)
      else ([(i, r)], some (i, r), lidx)

/-- Lexicographic comparison of character lists by code point. -/
def py_chars_lt : List Char → List Char → Bool
  | [], [] => false
  | [], _ :: _ => true
  | _ :: _, [] => false
  | a :: as, b :: bs =>
      if a.toNat < b.toNat then true
      else if b.toNat < a.toNat then false
      else py_chars_lt as bs

/-- Python string comparison a < b: lexicographic by Unicode code point
(the DISTANCE values compared at line 73 are strings). -/
def py_str_lt (a b : String) : Bool :=
  py_chars_lt a.data b.data

/-- The size>1 branch of vep_highest_impact.py lines 67-75:
lowest_distance_idx = None; the scan loop; then the post-loop
`if lowest_distance_idx is None or row['Extra']['DISTANCE'] <
group.loc[lowest_distance_idx]['Extra']['DISTANCE']`, which assigns
lowest_distance_idx = index and appends group.loc[lowest_distance_idx].
An empty group would leave `index` unbound (NameError); a failing dict or
label lookup in the comparison is a KeyError. -/
def select_for_group (g : List (Nat × Row)) : Except String (List (Nat × Row)) :=
  match group_scan none g with
  | (_, none, _) => .error "NameError: name index is not defined"
  | (sel, some (index, row), lidx) =>
      match lidx with
      | none =>
          match locRow g index with
          | some r2 => .ok (sel ++ [(index, r2)])
          | none => .error "KeyError: index label"
      | some li =>
          match dict_get row.Extra "DISTANCE",
                (locRow g li).bind (fun r2 => dict_get r2.Extra "DISTANCE") with
          | some d1, some d2 =>
              if py_str_lt d1 d2 then
                match locRow g index with
                | some r2 => .ok (sel ++ [(index, r2)])
                | none => .error "KeyError: index label"
              else .ok sel
          | _, _ => .error "KeyError: DISTANCE"

/-- vep_highest_impact.py lines 64-75: a group of size 1 contributes
group.iloc[0]; otherwise the size>1 branch runs. -/
def select_one_group (g : List (Nat × Row)) : Except String (List (Nat × Row)) :=
  if g.length == 1 then .ok g else select_for_group g

/-- The groupby iteration of lines 63-75: the per-group selections in
group order, concatenated into selected_rows. -/
def select_groups : List (List (Nat × Row)) → Except String (List (Nat × Row))
  | [] => .ok []
  | g :: gs => do
      let s ← select_one_group g
      let rest ← select_groups gs
      .ok (s ++ rest)

/-- Distinct values in order of first occurrence (values already seen are
skipped). -/
def dedup_str (seen : List String) : List String → List String
  | [] => []
  | s :: rest => if seen.contains s then dedup_str seen rest else s :: dedup_str (s :: seen) rest

/-- The rows of the frame whose Location equals L, in original order. -/
def group_of (g : List (Nat × Row)) (L : String) : List (Nat × Row) :=
  g.filter (fun p => p.2.Location == L)

/-- The distinct Location keys sorted ascending, as df.groupby('Location')
enumerates them (pandas sorts group keys). -/
def sorted_locations (g : List (Nat × Row)) : List String :=
  List.insertionSort (fun a b : String => py_str_lt a b = true)
    (dedup_str [] (g.map (fun p => p.2.Location)))

/-- df.groupby('Location') as iterated at line 63: one subframe per distinct
Location, keys ascending, rows of each subframe in original order. -/
def groupby_location (g : List (Nat × Row)) : List (List (Nat × Row)) :=
  (sorted_locations g).map (group_of g)

/-- drop_duplicates(subset=['Uploaded_variation']) (line 79): keep the first
row for each Uploaded_variation value not already seen. -/
def dedup_by_uv (seen : List String) : List (Nat × Row) → List (Nat × Row)
  | [] => []
  | p :: rest =>
      if seen.contains p.2.Uploaded_variation then dedup_by_uv seen rest
      else p :: dedup_by_uv (p.2.Uploaded_variation :: seen) rest

/-- selected_rows as accumulated by the loop of lines 61-75.  The Location
column always exists in this typed model, so the line-57 ValueError branch
is unrepresentable here. -/
def selected_rows_of (df : List Row) : Except String (List (Nat × Row)) :=
  select_groups (groupby_location (enum_from 0 df))

/-- vep_highest_impact.py lines 46-79 (select_highest_impact_rows):
pd.DataFrame(selected_rows).drop_duplicates(subset=['Uploaded_variation']).
When selected_rows is empty the frame has no columns and drop_duplicates
raises KeyError. -/
def select_highest_impact_rows (df : List Row) : Except String (List (Nat × Row)) := do
  let selected ← selected_rows_of df
  if selected.isEmpty then Except.error "KeyError: Uploaded_variation"
  else Except.ok (dedup_by_uv [] selected)

/-- Stable insertion of a labelled row into an index-sorted list. -/
def idx_insert (p : Nat × Row) : List (Nat × Row) → List (Nat × Row)
  | [] => [p]
  | q :: rest => if p.1 < q.1 then p :: q :: rest else q :: idx_insert p rest

/-- vep_highest_impact.py lines 84-96 (sort_df_by_index): df.sort_index(). -/
def sort_df_by_index : List (Nat × Row) → List (Nat × Row)
  | [] => []
  | p :: rest => idx_insert p (sort_df_by_index rest)

/-- main (lines 130-139, --rename absent): select_highest_impact_rows then
sort_df_by_index on its result. -/
def select_then_sort (df : List Row) : Except String (List (Nat × Row)) :=
  (select_highest_impact_rows df).map sort_df_by_index

/-- One step of the loop of vep_highest_impact.py lines 110-113: split the
identifier on '_' and rebuild prefix[0] + ':' + 'contig_' + var_name[0] +
':' + var_name[1]; none models the IndexError when words is empty or the
split has fewer than two parts. -/
def rename_row (words : List String) (r : Row) : Option Row :=
  match words, py_split r.Uploaded_variation '_' with
  | w0 :: _, p0 :: p1 :: _ =>
      some { r with Uploaded_variation := w0 ++ ":" ++ "contig_" ++ p0 ++ ":" ++ p1 }
  | _, _ => none

/-- vep_highest_impact.py lines 98-116 (rename_snps_in_df): rewrite the
Uploaded_variation of every row in place, all other columns untouched. -/
def rename_snps_in_df (df : List Row) (words : List String) : Option (List Row) :=
  match df with
  | [] => some []
  | r :: rest =>
      match rename_row words r, rename_snps_in_df rest words with
      | some r2, some rest2 => some (r2 :: rest2)
      | _, _ => none

/-- A generic tab-separated table for annotate_vep_regenie.py: a header row
and data rows of cells. -/
structure Table where
  header : List String
  rows : List (List String)
deriving Repr, DecidableEq

/-- Position of a column name in a header (pandas column lookup; none is the
KeyError raised by merge on a missing key column). -/
def col_idx : List String → String → Option Nat
  | [], _ => none
  | c :: rest, name => if c == name then some 0 else (col_idx rest name).map (· + 1)

/-- The merge key comparison: cell i of the left row equals cell j of the
right row (both present). -/
def key_match (l r : List String) (i j : Nat) : Bool :=
  match l[i]?, r[j]? with
  | some a, some b => a == b
  | _, _ => false

/-- The inner-join rows of vep_df.merge(regenie_df, left_on='Uploaded_variation',
right_on='ID', how='inner') (annotate_vep_regenie.py line 27): for each left
row, each matching right row concatenated onto it. -/
def merge_rows (rrows : List (List String)) (i j : Nat) :
    List (List String) → List (List String)
  | [] => []
  | l :: rest => ((rrows.filter (fun r => key_match l r i j)).map (fun r => l ++ r))
      ++ merge_rows rrows i j rest

/-- pandas merge column names: overlapping names take the _x / _y suffixes
(exact when the headers share no name, the only case exercised below). -/
def suffix_headers (hl hr : List String) : List String :=
  hl.map (fun c => if hr.contains c then c ++ "_x" else c)
    ++ hr.map (fun c => if hl.contains c then c ++ "_y" else c)

/-- annotate_vep_regenie.py lines 27-37: the inner join; when it is empty the
script writes an empty table whose header is the plain concatenation of both
input headers; otherwise it writes the merged frame.  none models the
KeyError of a missing key column (nothing is written). -/
def annotate_vep_regenie_main (vep regenie : Table) : Option Table :=
  match col_idx vep.header "Uploaded_variation", col_idx regenie.header "ID" with
  | some i, some j =>
      let merged := merge_rows regenie.rows i j vep.rows
      if merged.isEmpty then some ⟨vep.header ++ regenie.header, []⟩
      else some ⟨suffix_headers vep.header regenie.header, merged⟩
  | _, _ => none

/-- A row with only the fields the selector consults filled in (used for the
concrete instances below). -/
def mkRow (uv loc : String) (ex : List (String × String)) : Row :=
  ⟨uv, loc, "", "", "", "", "", "", "", "", "", "", "", ex⟩

/-! ### Basic lemmas about the embedded operations -/

theorem contains_iff_mem (l : List String) (a : String) : l.contains a = true ↔ a ∈ l :=
  List.elem_iff

theorem contains_eq_false_iff (l : List String) (a : String) :
    l.contains a = false ↔ a ∉ l := by
  rw [← contains_iff_mem l a]
  cases l.contains a <;> simp

/-- The loop body of lines 68-71 never assigns lowest_distance_idx: the
threaded value leaves the scan unchanged. -/
theorem group_scan_lidx (lidx : Option Nat) (g : List (Nat × Row)) :
    (group_scan lidx g).2.2 = lidx := by
  induction g with
  | nil => rfl
  | cons p rest ih =>
      obtain ⟨i, r⟩ := p
      simp only [group_scan]
      by_cases h : hasDistance r
      · simp only [h, if_true]
        rcases hgs : group_scan lidx rest with ⟨sel, lr, lv⟩
        rw [hgs] at ih
        cases lr <;> simpa using ih
      · simp [h]

/-- Unfolding: a row with a DISTANCE key continues the scan. -/
theorem group_scan_cons_some (lidx : Option Nat) (i : Nat) (r : Row)
    (rest : List (Nat × Row)) (h : hasDistance r = true) (sel : List (Nat × Row))
    (lr : Nat × Row) (lv : Option Nat) (hgs : group_scan lidx rest = (sel, some lr, lv)) :
    group_scan lidx ((i, r) :: rest) = (sel, some lr, lv) := by
  simp only [group_scan, h, if_true, hgs]

/-- Unfolding: a row with a DISTANCE key closing the scan leaves (index, row)
bound to it. -/
theorem group_scan_cons_none (lidx : Option Nat) (i : Nat) (r : Row)
    (rest : List (Nat × Row)) (h : hasDistance r = true) (sel : List (Nat × Row))
    (lv : Option Nat) (hgs : group_scan lidx rest = (sel, none, lv)) :
    group_scan lidx ((i, r) :: rest) = (sel, some (i, r), lv) := by
  simp only [group_scan, h, if_true, hgs]

/-- Unfolding: a row without a DISTANCE key is appended and the scan breaks. -/
theorem group_scan_cons_break (lidx : Option Nat) (i : Nat) (r : Row)
    (rest : List (Nat × Row)) (h : hasDistance r = false) :
    group_scan lidx ((i, r) :: rest) = ([(i, r)], some (i, r), lidx) := by
  simp [group_scan, h]

/-- A scan over rows that all carry a DISTANCE key never breaks: nothing is
appended and the last row examined is the final row of the group. -/
theorem group_scan_all_dist (lidx : Option Nat) (n : Nat) (init : List Row) (z : Row)
    (hall : ∀ x ∈ init ++ [z], hasDistance x = true) :
    group_scan lidx (enum_from n (init ++ [z])) = ([], some (n + init.length, z), lidx) := by
  induction init generalizing n with
  | nil =>
      have hz : hasDistance z = true := hall z (by simp)
      calc group_scan lidx (enum_from n ([] ++ [z]))
          = group_scan lidx ((n, z) :: []) := by rfl
        _ = ([], some (n, z), lidx) := group_scan_cons_none lidx n z [] hz [] lidx rfl
        _ = ([], some (n + [].length, z), lidx) := by simp
  | cons x rest ih =>
      have hx : hasDistance x = true := hall x (by simp)
      have ih2 := ih (n + 1) (fun y hy => hall y (List.mem_cons_of_mem x hy))
      calc group_scan lidx (enum_from n ((x :: rest) ++ [z]))
          = group_scan lidx ((n, x) :: enum_from (n + 1) (rest ++ [z])) := by rfl
        _ = ([], some (n + 1 + rest.length, z), lidx) :=
            group_scan_cons_some lidx n x _ hx _ _ _ ih2
        _ = ([], some (n + (x :: rest).length, z), lidx) := by
            have : n + 1 + rest.length = n + (rest.length + 1) := by omega
            simp [this]

/-- A scan that meets a row without a DISTANCE key after rows that all have
one appends exactly that row and breaks there. -/
theorem group_scan_break (lidx : Option Nat) (n : Nat) (pre : List Row) (r : Row)
    (post : List Row) (hpre : ∀ x ∈ pre, hasDistance x = true)
    (hr : hasDistance r = false) :
    group_scan lidx (enum_from n (pre ++ r :: post)) =
      ([(n + pre.length, r)], some (n + pre.length, r), lidx) := by
  induction pre generalizing n with
  | nil =>
      calc group_scan lidx (enum_from n ([] ++ r :: post))
          = group_scan lidx ((n, r) :: enum_from (n + 1) post) := by rfl
        _ = ([(n, r)], some (n, r), lidx) := group_scan_cons_break lidx n r _ hr
        _ = ([(n + [].length, r)], some (n + [].length, r), lidx) := by simp
  | cons x rest ih =>
      have hx : hasDistance x = true := hpre x (by simp)
      have ih2 := ih (n + 1) (fun y hy => hpre y (List.mem_cons_of_mem x hy))
      calc group_scan lidx (enum_from n ((x :: rest) ++ r :: post))
          = group_scan lidx ((n, x) :: enum_from (n + 1) (rest ++ r :: post)) := by rfl
        _ = ([(n + 1 + rest.length, r)], some (n + 1 + rest.length, r), lidx) :=
            group_scan_cons_some lidx n x _ hx _ _ _ ih2
        _ = ([(n + (x :: rest).length, r)], some (n + (x :: rest).length, r), lidx) := by
            have : n + 1 + rest.length = n + (rest.length + 1) := by omega
            simp [this]

/-- Every scan of a nonempty group ends with a last-examined row that belongs
to the group, having appended either nothing or exactly that row. -/
theorem group_scan_spec (g : List (Nat × Row)) (hne : g ≠ []) :
    ∃ i r sel, group_scan none g = (sel, some (i, r), none) ∧ (i, r) ∈ g ∧
      (sel = [] ∨ sel = [(i, r)]) := by
  induction g with
  | nil => exact absurd rfl hne
  | cons p rest ih =>
      obtain ⟨i, r⟩ := p
      cases h : hasDistance r with
      | false =>
          exact ⟨i, r, [(i, r)], group_scan_cons_break none i r _ h, by simp, Or.inr rfl⟩
      | true =>
          rcases rest with _ | ⟨q, rest2⟩
          · exact ⟨i, r, [], group_scan_cons_none none i r [] h [] none rfl, by simp,
              Or.inl rfl⟩
          · obtain ⟨i2, r2, sel2, hgs, hmem, hsel⟩ := ih (by simp)
            exact ⟨i2, r2, sel2, group_scan_cons_some none i r _ h _ _ _ hgs,
              by simp [hmem], hsel⟩

theorem mem_enum_from_snd (n : Nat) (l : List Row) (p : Nat × Row)
    (h : p ∈ enum_from n l) : p.2 ∈ l := by
  induction l generalizing n with
  | nil => simp [enum_from] at h
  | cons x xs ih =>
      simp only [enum_from, List.mem_cons] at h
      rcases h with h | h
      · simp [h]
      · simp [ih (n + 1) h]

theorem enum_from_fst_ge (n : Nat) (l : List Row) (p : Nat × Row)
    (h : p ∈ enum_from n l) : n ≤ p.1 := by
  induction l generalizing n with
  | nil => simp [enum_from] at h
  | cons x xs ih =>
      simp only [enum_from, List.mem_cons] at h
      rcases h with h | h
      · simp [h]
      · have := ih (n + 1) h
        omega

/-- The pandas RangeIndex labels are pairwise distinct. -/
theorem enum_from_pairwise (n : Nat) (l : List Row) :
    (enum_from n l).Pairwise (fun a b => a.1 ≠ b.1) := by
  induction l generalizing n with
  | nil => simp [enum_from]
  | cons x xs ih =>
      simp only [enum_from, List.pairwise_cons]
      refine ⟨fun p hp => ?_, ih (n + 1)⟩
      have := enum_from_fst_ge (n + 1) xs p hp
      simp
      omega

theorem enum_from_map_snd (n : Nat) (l : List Row) :
    (enum_from n l).map Prod.snd = l := by
  induction l generalizing n with
  | nil => rfl
  | cons x xs ih => simp [enum_from, ih]

/-- .loc on a frame with distinct index labels returns the row carrying the
requested label. -/
theorem locRow_of_mem (g : List (Nat × Row)) (i : Nat) (r : Row)
    (hnd : g.Pairwise (fun a b => a.1 ≠ b.1)) (hm : (i, r) ∈ g) :
    locRow g i = some r := by
  induction g with
  | nil => simp at hm
  | cons q rest ih =>
      obtain ⟨j, s⟩ := q
      rw [List.pairwise_cons] at hnd
      rcases List.mem_cons.mp hm with h | h
      · obtain ⟨h1, h2⟩ := Prod.mk.injEq .. ▸ h
        cases h
        simp [locRow, List.find?]
      · have hne : j ≠ i := by
          have := hnd.1 (i, r) h
          simpa using this
        have := ih hnd.2 h
        simp only [locRow, List.find?] at this ⊢
        have hbeq : (j == i) = false := by simpa using hne
        simp [hbeq, this]

/-- .loc succeeds on any frame containing the requested label. -/
theorem locRow_isSome (g : List (Nat × Row)) (i : Nat) (r : Row)
    (hm : (i, r) ∈ g) : ∃ r2, locRow g i = some r2 := by
  induction g with
  | nil => simp at hm
  | cons q rest ih =>
      obtain ⟨j, s⟩ := q
      by_cases h : j = i
      · subst h
        exact ⟨s, by simp [locRow, List.find?]⟩
      · rcases List.mem_cons.mp hm with hh | hh
        · cases hh; simp at h
        · obtain ⟨r2, hr2⟩ := ih hh
          refine ⟨r2, ?_⟩
          have hbeq : (j == i) = false := by simpa using h
          simp only [locRow, List.find?, hbeq] at hr2 ⊢
          exact hr2

theorem dedup_by_uv_cons_keep (seen : List String) (p : Nat × Row) (rest : List (Nat × Row))
    (h : seen.contains p.2.Uploaded_variation = false) :
    dedup_by_uv seen (p :: rest) = p :: dedup_by_uv (p.2.Uploaded_variation :: seen) rest := by
  have hm : p.2.Uploaded_variation ∉ seen := (contains_eq_false_iff _ _).mp h
  simp [dedup_by_uv, hm]

theorem dedup_by_uv_cons_skip (seen : List String) (p : Nat × Row) (rest : List (Nat × Row))
    (h : seen.contains p.2.Uploaded_variation = true) :
    dedup_by_uv seen (p :: rest) = dedup_by_uv seen rest := by
  have hm : p.2.Uploaded_variation ∈ seen := (contains_iff_mem _ _).mp h
  simp [dedup_by_uv, hm]

/-- The double append of the break case collapses: both copies carry the same
Uploaded_variation, so drop_duplicates keeps only the first. -/
theorem dedup_by_uv_pair (p : Nat × Row) : dedup_by_uv [] [p, p] = [p] := by
  rw [dedup_by_uv_cons_keep [] p [p] rfl,
      dedup_by_uv_cons_skip _ p [] (by rw [contains_iff_mem]; exact List.mem_cons_self _ _)]
  rfl

/-- drop_duplicates leaves rows with pairwise distinct Uploaded_variation
values, each taken from the input and none with a value already seen. -/
theorem dedup_by_uv_spec (l : List (Nat × Row)) (seen : List String) :
    (dedup_by_uv seen l).Pairwise
        (fun a b => a.2.Uploaded_variation ≠ b.2.Uploaded_variation) ∧
      ∀ p ∈ dedup_by_uv seen l, p.2.Uploaded_variation ∉ seen ∧ p ∈ l := by
  induction l generalizing seen with
  | nil => simp [dedup_by_uv]
  | cons p rest ih =>
      cases h : seen.contains p.2.Uploaded_variation with
      | true =>
          rw [dedup_by_uv_cons_skip seen p rest h]
          obtain ⟨h1, h2⟩ := ih seen
          exact ⟨h1, fun q hq => ⟨(h2 q hq).1, List.mem_cons_of_mem p (h2 q hq).2⟩⟩
      | false =>
          rw [dedup_by_uv_cons_keep seen p rest h]
          obtain ⟨h1, h2⟩ := ih (p.2.Uploaded_variation :: seen)
          constructor
          · rw [List.pairwise_cons]
            refine ⟨fun q hq heq => ?_, h1⟩
            exact (h2 q hq).1 (by rw [← heq]; exact List.mem_cons_self _ _)
          · intro q hq
            rcases List.mem_cons.mp hq with hh | hh
            · subst hh
              exact ⟨(contains_eq_false_iff seen _).mp h, List.mem_cons_self _ _⟩
            · exact ⟨fun hmem => (h2 q hh).1 (List.mem_cons_of_mem _ hmem),
                List.mem_cons_of_mem p (h2 q hh).2⟩

/-- For each Uploaded_variation value, drop_duplicates keeps exactly the
first row carrying it, in the order of the list it is applied to. -/
theorem dedup_by_uv_filter (u : String) (l : List (Nat × Row)) (seen : List String) :
    (seen.contains u = false →
      (dedup_by_uv seen l).filter (fun p => p.2.Uploaded_variation == u) =
        (l.filter (fun p => p.2.Uploaded_variation == u)).take 1) ∧
    (seen.contains u = true →
      (dedup_by_uv seen l).filter (fun p => p.2.Uploaded_variation == u) = []) := by
  induction l generalizing seen with
  | nil => simp [dedup_by_uv]
  | cons p rest ih =>
      cases h : seen.contains p.2.Uploaded_variation with
      | true =>
          rw [dedup_by_uv_cons_skip seen p rest h]
          constructor
          · intro hu
            have hne : (p.2.Uploaded_variation == u) = false := by
              rw [beq_eq_false_iff_ne]
              intro heq
              rw [contains_iff_mem] at h
              rw [contains_eq_false_iff] at hu
              exact hu (heq ▸ h)
            rw [List.filter_cons_of_neg (by simp [hne]), (ih seen).1 hu]
          · exact (ih seen).2
      | false =>
          rw [dedup_by_uv_cons_keep seen p rest h]
          cases hpu : p.2.Uploaded_variation == u with
          | true =>
              have hval : p.2.Uploaded_variation = u := beq_iff_eq.mp hpu
              constructor
              · intro hu
                rw [List.filter_cons_of_pos (by simp [hpu]),
                    List.filter_cons_of_pos (by simp [hpu])]
                rw [(ih (p.2.Uploaded_variation :: seen)).2
                    (by rw [contains_iff_mem]; rw [hval]; exact List.mem_cons_self _ _)]
                simp
              · intro hu
                rw [contains_eq_false_iff] at h
                rw [contains_iff_mem] at hu
                exact absurd (hval ▸ hu) h
          | false =>
              constructor
              · intro hu
                rw [List.filter_cons_of_neg (by simp [hpu]),
                    List.filter_cons_of_neg (by simp [hpu])]
                refine (ih (p.2.Uploaded_variation :: seen)).1 ?_
                rw [contains_eq_false_iff]
                intro hmem
                rcases List.mem_cons.mp hmem with hh | hh
                · exact (beq_eq_false_iff_ne.mp hpu) hh.symm
                · rw [contains_eq_false_iff] at hu
                  exact hu hh
              · intro hu
                rw [List.filter_cons_of_neg (by simp [hpu])]
                refine (ih (p.2.Uploaded_variation :: seen)).2 ?_
                rw [contains_iff_mem] at hu ⊢
                exact List.mem_cons_of_mem _ hu

theorem dedup_str_cons_skip (seen : List String) (x : String) (rest : List String)
    (h : x ∈ seen) : dedup_str seen (x :: rest) = dedup_str seen rest := by
  simp [dedup_str, h]

theorem dedup_str_cons_keep (seen : List String) (x : String) (rest : List String)
    (h : x ∉ seen) : dedup_str seen (x :: rest) = x :: dedup_str (x :: seen) rest := by
  simp [dedup_str, h]

/-- The distinct group keys, each a value of the list and none already seen,
with no repetition. -/
theorem dedup_str_spec (l : List String) (seen : List String) :
    (dedup_str seen l).Nodup ∧ ∀ s, s ∈ dedup_str seen l ↔ s ∈ l ∧ s ∉ seen := by
  induction l generalizing seen with
  | nil => simp [dedup_str]
  | cons x rest ih =>
      by_cases h : x ∈ seen
      · rw [dedup_str_cons_skip seen x rest h]
        obtain ⟨h1, h2⟩ := ih seen
        refine ⟨h1, fun s => ?_⟩
        rw [h2 s]
        constructor
        · rintro ⟨hs, hns⟩
          exact ⟨List.mem_cons_of_mem x hs, hns⟩
        · rintro ⟨hs, hns⟩
          rcases List.mem_cons.mp hs with rfl | hs2
          · exact absurd h hns
          · exact ⟨hs2, hns⟩
      · rw [dedup_str_cons_keep seen x rest h]
        obtain ⟨h1, h2⟩ := ih (x :: seen)
        constructor
        · rw [List.nodup_cons]
          exact ⟨fun hmem => ((h2 x).mp hmem).2 (List.mem_cons_self _ _), h1⟩
        · intro s
          rw [List.mem_cons, h2 s]
          constructor
          · rintro (rfl | ⟨hs, hns⟩)
            · exact ⟨List.mem_cons_self _ _, h⟩
            · exact ⟨List.mem_cons_of_mem x hs,
                fun hmem => hns (List.mem_cons_of_mem x hmem)⟩
          · rintro ⟨hs, hns⟩
            by_cases hsx : s = x
            · exact Or.inl hsx
            · rcases List.mem_cons.mp hs with rfl | hs2
              · exact Or.inl rfl
              · refine Or.inr ⟨hs2, fun hmem => ?_⟩
                rcases List.mem_cons.mp hmem with h3 | h3
                · exact hsx h3
                · exact hns h3

theorem sorted_locations_perm (g : List (Nat × Row)) :
    List.Perm (sorted_locations g) (dedup_str [] (g.map (fun p => p.2.Location))) :=
  List.perm_insertionSort _ _

/-- A string is a group key exactly when some row of the frame has it as its
Location. -/
theorem mem_sorted_locations (g : List (Nat × Row)) (s : String) :
    s ∈ sorted_locations g ↔ ∃ p ∈ g, p.2.Location = s := by
  rw [(sorted_locations_perm g).mem_iff, (dedup_str_spec _ []).2 s]
  simp [List.mem_map]

theorem sorted_locations_nodup (g : List (Nat × Row)) : (sorted_locations g).Nodup :=
  ((sorted_locations_perm g).nodup_iff).mpr (dedup_str_spec _ []).1

theorem mem_group_of (g : List (Nat × Row)) (L : String) (p : Nat × Row) :
    p ∈ group_of g L ↔ p ∈ g ∧ p.2.Location = L := by
  simp [group_of, List.mem_filter]

/-- dedup_str over a nonempty constant list yields just that constant. -/
theorem dedup_str_const (L : String) (l : List String) (hne : l ≠ [])
    (h : ∀ s ∈ l, s = L) : dedup_str [] l = [L] := by
  have hall : ∀ (seen : List String) (rest : List String), L ∈ seen →
      (∀ s ∈ rest, s = L) → dedup_str seen rest = [] := by
    intro seen rest
    induction rest generalizing seen with
    | nil => intro _ _; rfl
    | cons y ys ih =>
        intro hLs hys
        have hy : y = L := hys y (List.mem_cons_self _ _)
        subst hy
        rw [dedup_str_cons_skip seen y ys hLs]
        exact ih seen hLs (fun s hs => hys s (List.mem_cons_of_mem y hs))
  cases l with
  | nil => exact absurd rfl hne
  | cons x rest =>
      have hx : x = L := h x (List.mem_cons_self _ _)
      subst hx
      rw [dedup_str_cons_keep [] x rest (by simp)]
      rw [hall [x] rest (List.mem_cons_self _ _)
        (fun s hs => h s (List.mem_cons_of_mem x hs))]

/-- A frame whose rows all share one Location forms a single group holding
the whole frame. -/
theorem groupby_single (df : List Row) (L : String) (hne : df ≠ [])
    (hloc : ∀ x ∈ df, x.Location = L) :
    groupby_location (enum_from 0 df) = [enum_from 0 df] := by
  have hmap : ∀ s ∈ (enum_from 0 df).map (fun p => p.2.Location), s = L := by
    intro s hs
    obtain ⟨p, hp, rfl⟩ := List.mem_map.mp hs
    exact hloc p.2 (mem_enum_from_snd 0 df p hp)
  have hmapne : (enum_from 0 df).map (fun p => p.2.Location) ≠ [] := by
    cases df with
    | nil => exact absurd rfl hne
    | cons x xs => simp [enum_from]
  have hded : dedup_str [] ((enum_from 0 df).map (fun p => p.2.Location)) = [L] :=
    dedup_str_const L _ hmapne hmap
  have hsort : sorted_locations (enum_from 0 df) = [L] := by
    unfold sorted_locations
    rw [hded]
    simp
  have hgrp : group_of (enum_from 0 df) L = enum_from 0 df := by
    apply List.filter_eq_self.mpr
    intro p hp
    have := hloc p.2 (mem_enum_from_snd 0 df p hp)
    simp [this]
  unfold groupby_location
  rw [hsort]
  simp [hgrp]

theorem except_bind_ok {ε α β : Type} (a : α) (f : α → Except ε β) :
    (Except.ok a : Except ε α) >>= f = f a := rfl

theorem enum_from_length (n : Nat) (l : List Row) : (enum_from n l).length = l.length := by
  induction l generalizing n with
  | nil => rfl
  | cons x xs ih => simp [enum_from, ih]

/-- The row at offset k of the frame carries index label n + k. -/
theorem mem_enum_from_append (n : Nat) (pre : List Row) (r : Row) (post : List Row) :
    (n + pre.length, r) ∈ enum_from n (pre ++ r :: post) := by
  induction pre generalizing n with
  | nil => simp [enum_from]
  | cons x rest ih =>
      show (n + (x :: rest).length, r) ∈ (n, x) :: enum_from (n + 1) (rest ++ r :: post)
      have harith : n + (x :: rest).length = n + 1 + rest.length := by simp; omega
      rw [harith]
      exact List.mem_cons_of_mem _ (ih (n + 1))

theorem select_groups_cons_ok (g : List (Nat × Row)) (gs : List (List (Nat × Row)))
    (sel rest : List (Nat × Row)) (h : select_one_group g = .ok sel)
    (h2 : select_groups gs = .ok rest) :
    select_groups (g :: gs) = .ok (sel ++ rest) := by
  simp [select_groups, h, h2, except_bind_ok]

/-- In the break case the group selection appends the first distance-free row
at the break and then once more through the always-true post-loop test. -/
theorem select_for_group_break (pre : List Row) (r : Row) (post : List Row)
    (hpre : ∀ x ∈ pre, hasDistance x = true) (hr : hasDistance r = false) :
    select_for_group (enum_from 0 (pre ++ r :: post)) =
      .ok [(pre.length, r), (pre.length, r)] := by
  have hscan := group_scan_break none 0 pre r post hpre hr
  have hmem : (0 + pre.length, r) ∈ enum_from 0 (pre ++ r :: post) :=
    mem_enum_from_append 0 pre r post
  have hloc : locRow (enum_from 0 (pre ++ r :: post)) (0 + pre.length) = some r :=
    locRow_of_mem _ _ _ (enum_from_pairwise 0 _) hmem
  rw [Nat.zero_add] at hloc
  unfold select_for_group
  rw [hscan]
  simp [hloc]

/-- When every row has a DISTANCE key the scan never breaks and the post-loop
test appends the last row examined. -/
theorem select_for_group_all_dist (init : List Row) (z : Row)
    (hall : ∀ x ∈ init ++ [z], hasDistance x = true) :
    select_for_group (enum_from 0 (init ++ [z])) = .ok [(init.length, z)] := by
  have hscan := group_scan_all_dist none 0 init z hall
  have hmem : (0 + init.length, z) ∈ enum_from 0 (init ++ [z]) :=
    mem_enum_from_append 0 init z []
  have hloc : locRow (enum_from 0 (init ++ [z])) (0 + init.length) = some z :=
    locRow_of_mem _ _ _ (enum_from_pairwise 0 _) hmem
  rw [Nat.zero_add] at hloc
  unfold select_for_group
  rw [hscan]
  simp [hloc]

/-- The full selector on a frame forming a single Location group of size
greater than one: whatever the size>1 branch selects, de-duplicated. -/
theorem select_single_group (df : List Row) (L : String)
    (hloc : ∀ x ∈ df, x.Location = L) (hbig : 1 < df.length) (sel : List (Nat × Row))
    (hsel : select_for_group (enum_from 0 df) = .ok sel) (hselne : sel.isEmpty = false) :
    select_highest_impact_rows df = .ok (dedup_by_uv [] sel) := by
  have hne : df ≠ [] := by
    intro h
    rw [h] at hbig
    simp at hbig
  have hlen : ((enum_from 0 df).length == 1) = false := by
    rw [enum_from_length]
    simp
    omega
  have hone : select_one_group (enum_from 0 df) = .ok sel := by
    simp [select_one_group, hlen, hsel]
  unfold select_highest_impact_rows selected_rows_of
  rw [groupby_single df L hne hloc]
  rw [select_groups_cons_ok _ [] sel [] hone rfl]
  have hne2 : sel ≠ [] := by
    cases sel with
    | nil => simp at hselne
    | cons a l => simp
  simp [except_bind_ok, hne2]

theorem dedup_by_uv_single (p : Nat × Row) : dedup_by_uv [] [p] = [p] := by
  rw [dedup_by_uv_cons_keep [] p [] rfl]
  rfl

theorem except_bind_err {ε α β : Type} (e : ε) (f : α → Except ε β) :
    (Except.error e : Except ε α) >>= f = Except.error e := rfl

/-! ### Claims -/

/-- C4: for every Location group of size greater than 1 containing at least
one row whose Extra mapping lacks the key DISTANCE, the Selector selects for
that group the first such row in original order and stops scanning the group
at that row — the rows after it are arbitrary and do not influence the
result. -/
theorem c4_first_row_without_distance (L : String) (pre : List Row) (r : Row)
    (post : List Row) (hloc : ∀ x ∈ pre ++ r :: post, x.Location = L)
    (hpre : ∀ x ∈ pre, hasDistance x = true) (hr : hasDistance r = false)
    (hbig : 1 < (pre ++ r :: post).length) :
    select_highest_impact_rows (pre ++ r :: post) = .ok [(pre.length, r)] := by
  have hsel := select_for_group_break pre r post hpre hr
  have hmain := select_single_group (pre ++ r :: post) L hloc hbig _ hsel (by rfl)
  rw [hmain, dedup_by_uv_pair]

/-- Witness for C4 at the spec's worked example: the v1 row has DISTANCE=5,
the v2 row has an empty Extra, and the Selector emits the v2 row. -/
theorem c4_witness :
    (∀ x ∈ [mkRow "v1" "1:100" [("DISTANCE", "5")]] ++ mkRow "v2" "1:100" [] :: [],
        x.Location = "1:100") ∧
    (∀ x ∈ [mkRow "v1" "1:100" [("DISTANCE", "5")]], hasDistance x = true) ∧
    hasDistance (mkRow "v2" "1:100" []) = false ∧
    1 < ([mkRow "v1" "1:100" [("DISTANCE", "5")]] ++ mkRow "v2" "1:100" [] :: []).length ∧
    select_highest_impact_rows
        ([mkRow "v1" "1:100" [("DISTANCE", "5")]] ++ mkRow "v2" "1:100" [] :: []) =
      .ok [(1, mkRow "v2" "1:100" [])] := by
  refine ⟨by decide, by decide, by decide, by decide, ?_⟩
  have h := c4_first_row_without_distance "1:100" [mkRow "v1" "1:100" [("DISTANCE", "5")]]
      (mkRow "v2" "1:100" []) [] (by decide) (by decide) (by decide) (by decide)
  simpa using h

/-- C5: for every Location group of size greater than 1 whose rows all carry
a DISTANCE key, the Selector selects the last row visited by the scan — the
group's final row in original order — regardless of the DISTANCE values (the
witness selects the row with the larger value). -/
theorem c5_last_row_when_all_have_distance (L : String) (init : List Row) (z : Row)
    (hloc : ∀ x ∈ init ++ [z], x.Location = L)
    (hall : ∀ x ∈ init ++ [z], hasDistance x = true)
    (hbig : 1 < (init ++ [z]).length) :
    select_highest_impact_rows (init ++ [z]) = .ok [(init.length, z)] := by
  have hsel := select_for_group_all_dist init z hall
  have hmain := select_single_group (init ++ [z]) L hloc hbig _ hsel (by rfl)
  rw [hmain, dedup_by_uv_single]

/-- Witness for C5: both rows have a DISTANCE key; the second (last) row is
selected even though its DISTANCE "7" is larger than the first row's "2". -/
theorem c5_witness :
    (∀ x ∈ [mkRow "a" "2:1" [("DISTANCE", "2")]] ++ [mkRow "b" "2:1" [("DISTANCE", "7")]],
        x.Location = "2:1") ∧
    (∀ x ∈ [mkRow "a" "2:1" [("DISTANCE", "2")]] ++ [mkRow "b" "2:1" [("DISTANCE", "7")]],
        hasDistance x = true) ∧
    1 < ([mkRow "a" "2:1" [("DISTANCE", "2")]] ++ [mkRow "b" "2:1" [("DISTANCE", "7")]]).length ∧
    py_str_lt "2" "7" = true ∧
    select_highest_impact_rows
        ([mkRow "a" "2:1" [("DISTANCE", "2")]] ++ [mkRow "b" "2:1" [("DISTANCE", "7")]]) =
      .ok [(1, mkRow "b" "2:1" [("DISTANCE", "7")])] := by
  refine ⟨by decide, by decide, by decide, by decide, ?_⟩
  have h := c5_last_row_when_all_have_distance "2:1" [mkRow "a" "2:1" [("DISTANCE", "2")]]
      (mkRow "b" "2:1" [("DISTANCE", "7")]) (by decide) (by decide) (by decide)
  simpa using h

/-- C10: on every group of size greater than one, lowest_distance_idx is
still None when the post-loop condition is evaluated (the loop body never
assigns it), the disjunction short-circuits past the DISTANCE comparison,
and the size>1 branch returns without raising any KeyError. -/
theorem c10_lowest_distance_idx_dead (g : List (Nat × Row)) (hbig : 1 < g.length) :
    (group_scan none g).2.2 = none ∧ ∃ sel, select_for_group g = .ok sel := by
  refine ⟨group_scan_lidx none g, ?_⟩
  have hne : g ≠ [] := by
    intro h
    rw [h] at hbig
    simp at hbig
  obtain ⟨i, r, sel, hgs, hmem, hsel⟩ := group_scan_spec g hne
  obtain ⟨r2, hr2⟩ := locRow_isSome g i r hmem
  refine ⟨sel ++ [(i, r2)], ?_⟩
  unfold select_for_group
  rw [hgs]
  simp [hr2]

/-- Witness for C10 on a concrete two-row group (one row with a DISTANCE
key, one without). -/
theorem c10_witness :
    1 < ([(0, mkRow "v1" "1:100" [("DISTANCE", "5")]), (1, mkRow "v2" "1:100" [])] :
        List (Nat × Row)).length ∧
    ((group_scan none [(0, mkRow "v1" "1:100" [("DISTANCE", "5")]),
        (1, mkRow "v2" "1:100" [])]).2.2 = none ∧
      ∃ sel, select_for_group [(0, mkRow "v1" "1:100" [("DISTANCE", "5")]),
        (1, mkRow "v2" "1:100" [])] = .ok sel) :=
  ⟨by decide, c10_lowest_distance_idx_dead _ (by decide)⟩

/-- C7: the Selector's output never contains two rows with the same
Uploaded_variation value (the final drop_duplicates pass guarantees it). -/
theorem c7_output_uv_unique (df : List Row) (out : List (Nat × Row))
    (h : select_highest_impact_rows df = .ok out) :
    out.Pairwise (fun a b => a.2.Uploaded_variation ≠ b.2.Uploaded_variation) := by
  unfold select_highest_impact_rows at h
  cases hsel : selected_rows_of df with
  | error e =>
      rw [hsel, except_bind_err] at h
      simp at h
  | ok sel =>
      rw [hsel, except_bind_ok] at h
      by_cases he : sel.isEmpty = true
      · rw [if_pos he] at h
        simp at h
      · rw [if_neg he] at h
        injection h with h2
        rw [← h2]
        exact (dedup_by_uv_spec sel []).1

/-- Witness for C7 on a two-location frame. -/
theorem c7_witness :
    select_highest_impact_rows [mkRow "a" "1:1" [], mkRow "b" "2:2" []] =
      .ok [(0, mkRow "a" "1:1" []), (1, mkRow "b" "2:2" [])] ∧
    ([(0, mkRow "a" "1:1" []), (1, mkRow "b" "2:2" [])] : List (Nat × Row)).Pairwise
      (fun a b => a.2.Uploaded_variation ≠ b.2.Uploaded_variation) :=
  ⟨rfl, c7_output_uv_unique [mkRow "a" "1:1" [], mkRow "b" "2:2" []] _ rfl⟩

/-- C9: on a missing input path the Loader raises nothing to its caller: the
FileNotFoundError is caught inside the function, the message is reported to
standard output and None is returned, so the pipeline goes on with the
absent table. -/
theorem c9_missing_file_caught (fs : String → Option (List String)) (file_path : String)
    (h : fs file_path = none) :
    read_vep_annotation_file fs file_path =
      .ok (none, ["File not found: " ++ file_path]) := by
  unfold read_vep_annotation_file
  rw [h]

/-- Witness for C9 on an empty file system. -/
theorem c9_witness :
    ((fun _ : String => (none : Option (List String))) "variants.txt" = none) ∧
    read_vep_annotation_file (fun _ => none) "variants.txt" =
      .ok (none, ["File not found: " ++ "variants.txt"]) :=
  ⟨rfl, c9_missing_file_caught (fun _ => none) "variants.txt" rfl⟩

/-- C1: with a nonempty prefix token list and every identifier containing at
least one underscore, the Renamer rewrites every row's Uploaded_variation to
words[0] + ":" + "contig_" + part0 + ":" + part1, where part0 and part1 are
the first two '_'-separated parts of the original identifier, and leaves
every other column of every row unchanged. -/
theorem c1_renamer_rewrites (df : List Row) (w0 : String) (ws : List String)
    (h : ∀ r ∈ df, 2 ≤ (py_split r.Uploaded_variation '_').length) :
    rename_snps_in_df df (w0 :: ws) =
      some (df.map (fun r =>
        { r with Uploaded_variation :=
            w0 ++ ":" ++ "contig_" ++ (py_split r.Uploaded_variation '_').headD ""
              ++ ":" ++ ((py_split r.Uploaded_variation '_').drop 1).headD "" })) := by
  induction df with
  | nil => rfl
  | cons r rest ih =>
      have hr := h r (List.mem_cons_self _ _)
      have ihr := ih (fun q hq => h q (List.mem_cons_of_mem r hq))
      obtain ⟨p0, p1, tl, hsplit⟩ :
          ∃ p0 p1 tl, py_split r.Uploaded_variation '_' = p0 :: p1 :: tl := by
        cases hsp : py_split r.Uploaded_variation '_' with
        | nil => rw [hsp] at hr; simp at hr
        | cons a t =>
            cases t with
            | nil => rw [hsp] at hr; simp at hr
            | cons b t2 => exact ⟨a, b, t2, rfl⟩
      have hrow : rename_row (w0 :: ws) r = some { r with Uploaded_variation :=
          w0 ++ ":" ++ "contig_" ++ p0 ++ ":" ++ p1 } := by
        unfold rename_row
        rw [hsplit]
      simp only [rename_snps_in_df]
      rw [hrow, ihr]
      simp [hsplit]

/-- Witness for C1 at the spec's example: prefix token "sampleA" and
identifier "chr1_12345". -/
theorem c1_witness :
    (∀ r ∈ [mkRow "chr1_12345" "1:100" []],
        2 ≤ (py_split r.Uploaded_variation '_').length) ∧
    rename_snps_in_df [mkRow "chr1_12345" "1:100" []] ("sampleA" :: []) =
      some [mkRow "sampleA:contig_chr1:12345" "1:100" []] := by
  refine ⟨by decide, ?_⟩
  have h := c1_renamer_rewrites [mkRow "chr1_12345" "1:100" []] "sampleA" [] (by decide)
  rw [h]
  rfl

/-- C6 fails as stated: the code splits each segment on every '=' (not the
first) and feeds the pieces to dict(), so a segment holding two '='
characters raises ValueError instead of parsing — the conversion is not
error-free on all segments. -/
theorem c6_counterexample : parse_extra "DISTANCE=1=2" = none := rfl

theorem dict_of_pairs_all_two (l : List (List String))
    (h : ∀ e ∈ l, e.length = 2) :
    dict_of_pairs l = some (l.map (fun e => (e.headD "", (e.drop 1).headD ""))) := by
  induction l with
  | nil => rfl
  | cons e rest ih =>
      obtain ⟨a, b, rfl⟩ : ∃ a b, e = [a, b] := by
        have he := h e (List.mem_cons_self _ _)
        cases e with
        | nil => simp at he
        | cons a t =>
            cases t with
            | nil => simp at he
            | cons b t2 =>
                cases t2 with
                | nil => exact ⟨a, b, rfl⟩
                | cons c t3 => simp at he
      rw [show dict_of_pairs ([a, b] :: rest) =
            (dict_of_pairs rest).map (fun d => (a, b) :: d) from rfl]
      rw [ih (fun e2 he2 => h e2 (List.mem_cons_of_mem _ he2))]
      rfl

/-- C6 amended: the Extra string is split on ';'; segments without '=' are
dropped silently; each kept segment is split on every '=' and contributes
its two parts as a key/value pair — provided every kept segment contains
exactly one '=', in which case (and only then) no error is raised.  A kept
segment with two or more '=' characters instead raises ValueError (see the
counterexample). -/
theorem c6_amended_extra_parse (x : String)
    (h : ∀ item ∈ (py_split x ';').filter (fun it => py_contains it '='),
        (py_split item '=').length = 2) :
    parse_extra x =
      some (((py_split x ';').filter (fun it => py_contains it '=')).map
        (fun it => ((py_split it '=').headD "", ((py_split it '=').drop 1).headD ""))) := by
  unfold parse_extra
  rw [dict_of_pairs_all_two _ (fun e he => by
    obtain ⟨item, hitem, rfl⟩ := List.mem_map.mp he
    exact h item hitem)]
  simp [List.map_map, Function.comp]

/-- Witness for C6 amended: one well-formed pair, one dropped segment. -/
theorem c6_witness :
    (∀ item ∈ (py_split "DISTANCE=5;FOO" ';').filter (fun it => py_contains it '='),
        (py_split item '=').length = 2) ∧
    parse_extra "DISTANCE=5;FOO" =
      some (((py_split "DISTANCE=5;FOO" ';').filter (fun it => py_contains it '=')).map
        (fun it => ((py_split it '=').headD "", ((py_split it '=').drop 1).headD ""))) :=
  ⟨by decide, c6_amended_extra_parse "DISTANCE=5;FOO" (by decide)⟩

theorem merge_rows_nil (rrows : List (List String)) (i j : Nat)
    (vrows : List (List String))
    (h : ∀ l ∈ vrows, ∀ r ∈ rrows, key_match l r i j = false) :
    merge_rows rrows i j vrows = [] := by
  induction vrows with
  | nil => rfl
  | cons l rest ih =>
      simp only [merge_rows]
      rw [List.filter_eq_nil_iff.mpr (fun r hr => by
        simp [h l (List.mem_cons_self _ _) r hr]),
        ih (fun l2 hl2 => h l2 (List.mem_cons_of_mem _ hl2))]
      rfl

/-- C8: when no left Uploaded_variation value matches any right ID value,
the Merger does not fail: the written output has zero data rows and its
header is the concatenation of both input headers. -/
theorem c8_empty_join (vep regenie : Table) (i j : Nat)
    (hi : col_idx vep.header "Uploaded_variation" = some i)
    (hj : col_idx regenie.header "ID" = some j)
    (hnm : ∀ l ∈ vep.rows, ∀ r ∈ regenie.rows, key_match l r i j = false) :
    annotate_vep_regenie_main vep regenie = some ⟨vep.header ++ regenie.header, []⟩ := by
  unfold annotate_vep_regenie_main
  rw [hi, hj]
  simp [merge_rows_nil regenie.rows i j vep.rows hnm]

/-- Witness for C8 on two one-row tables with non-matching keys. -/
theorem c8_witness :
    col_idx (["Uploaded_variation", "X"] : List String) "Uploaded_variation" = some 0 ∧
    col_idx (["ID", "Y"] : List String) "ID" = some 0 ∧
    (∀ l ∈ [["v1", "x"]], ∀ r ∈ [["v2", "y"]], key_match l r 0 0 = false) ∧
    annotate_vep_regenie_main ⟨["Uploaded_variation", "X"], [["v1", "x"]]⟩
        ⟨["ID", "Y"], [["v2", "y"]]⟩ =
      some ⟨["Uploaded_variation", "X"] ++ ["ID", "Y"], []⟩ :=
  ⟨by decide, by decide, by decide,
    c8_empty_join ⟨["Uploaded_variation", "X"], [["v1", "x"]]⟩ ⟨["ID", "Y"], [["v2", "y"]]⟩
      0 0 (by decide) (by decide) (by decide)⟩

/-- Index-0 row at Location "B:1" and index-1 row at Location "A:1", both
with Uploaded_variation "v": groupby visits "A:1" first, so the index-1 row
is selected before the index-0 row. -/
def rowB : Row := mkRow "v" "B:1" []

def rowA : Row := mkRow "v" "A:1" []

/-- C3 fails as stated: drop_duplicates runs inside the Selector, before
main's sort_df_by_index.  With rowB at original index 0 and rowA at index 1
the de-duplication keeps the row selected first in group order (rowA, index
1), not the row with the smaller original index (rowB, index 0): the final
sorted output is the index-1 row. -/
theorem c3_counterexample :
    select_then_sort [rowB, rowA] = .ok [(1, rowA)] ∧
    rowB.Uploaded_variation = rowA.Uploaded_variation ∧ rowA ≠ rowB ∧ (1 : Nat) ≠ 0 :=
  ⟨rfl, rfl, by decide, by decide⟩

/-- C3 amended: the Uploaded_variation de-duplication happens before the
ordering by original row index, not after.  drop_duplicates is applied to
the rows in group-selection order (groups ascending by Location key) and,
for each Uploaded_variation value, keeps the first selected row in that
order — not necessarily the row with the smaller original index; main then
sorts the de-duplicated rows by index. -/
theorem c3_amended_dedup_before_sort (df : List Row) (sel : List (Nat × Row)) (u : String)
    (h : selected_rows_of df = .ok sel) (hne : sel ≠ []) :
    select_highest_impact_rows df = .ok (dedup_by_uv [] sel) ∧
    select_then_sort df = .ok (sort_df_by_index (dedup_by_uv [] sel)) ∧
    (dedup_by_uv [] sel).filter (fun p => p.2.Uploaded_variation == u) =
      (sel.filter (fun p => p.2.Uploaded_variation == u)).take 1 := by
  have hselne : sel.isEmpty = false := by
    cases sel with
    | nil => exact absurd rfl hne
    | cons a l => rfl
  have h1 : select_highest_impact_rows df = .ok (dedup_by_uv [] sel) := by
    unfold select_highest_impact_rows
    rw [h, except_bind_ok, if_neg (by simp [hselne])]
  refine ⟨h1, ?_, (dedup_by_uv_filter u sel []).1 rfl⟩
  unfold select_then_sort
  rw [h1]
  rfl

/-- Witness for C3 amended at the two-location frame of the counterexample:
the selection order is the index-1 "A:1" row then the index-0 "B:1" row, and
de-duplication keeps the index-1 row. -/
theorem c3_witness :
    selected_rows_of [rowB, rowA] = .ok [(1, rowA), (0, rowB)] ∧
    ([(1, rowA), (0, rowB)] : List (Nat × Row)) ≠ [] ∧
    (select_highest_impact_rows [rowB, rowA] =
        .ok (dedup_by_uv [] [(1, rowA), (0, rowB)]) ∧
      select_then_sort [rowB, rowA] =
        .ok (sort_df_by_index (dedup_by_uv [] [(1, rowA), (0, rowB)])) ∧
      (dedup_by_uv [] [(1, rowA), (0, rowB)]).filter
          (fun p => p.2.Uploaded_variation == "v") =
        (([(1, rowA), (0, rowB)] : List (Nat × Row)).filter
          (fun p => p.2.Uploaded_variation == "v")).take 1) :=
  ⟨rfl, by decide, c3_amended_dedup_before_sort [rowB, rowA] [(1, rowA), (0, rowB)] "v"
    rfl (by decide)⟩

/-- C2 fails as stated: the final drop_duplicates pass keys on
Uploaded_variation across groups, so a Location can lose its only row.  Here
"B:1" is a Location of the input (a group of size 1), yet the output holds
no row at "B:1": its row was dropped because the "A:1" group's row carries
the same Uploaded_variation "v". -/
theorem c2_counterexample :
    select_highest_impact_rows [rowB, rowA] = .ok [(1, rowA)] ∧
    rowB ∈ [rowB, rowA] ∧ rowB.Location = "B:1" ∧
    (([rowB, rowA] : List Row).filter (fun y => y.Location == "B:1")).length = 1 ∧
    ([(1, rowA)] : List (Nat × Row)).filter (fun p => p.2.Location == "B:1") = [] :=
  ⟨rfl, by decide, rfl, by decide, by decide⟩

/-- A group of size 1 contributes its row; a bigger group contributes the
scan's selection once or twice — in all cases a single distinct row drawn
from the group. -/
theorem select_one_group_spec (g : List (Nat × Row)) (hne : g ≠ [])
    (hnd : g.Pairwise (fun a b => a.1 ≠ b.1)) :
    ∃ p, p ∈ g ∧ (select_one_group g = .ok [p] ∨ select_one_group g = .ok [p, p]) ∧
      (g.length = 1 → g = [p]) := by
  cases hlen : g.length == 1 with
  | true =>
      have h1 : g.length = 1 := by simpa using hlen
      obtain ⟨p, rfl⟩ : ∃ p, g = [p] := by
        cases g with
        | nil => simp at h1
        | cons a t =>
            cases t with
            | nil => exact ⟨a, rfl⟩
            | cons b t2 => simp at h1
      exact ⟨p, List.mem_cons_self _ _, Or.inl (by simp [select_one_group]),
        fun _ => rfl⟩
  | false =>
      have hlen1 : g.length ≠ 1 := by simpa using hlen
      obtain ⟨i, r, sel, hgs, hmem, hsel⟩ := group_scan_spec g hne
      have hloc : locRow g i = some r := locRow_of_mem g i r hnd hmem
      have hfor : select_for_group g = .ok (sel ++ [(i, r)]) := by
        unfold select_for_group
        rw [hgs]
        simp [hloc]
      refine ⟨(i, r), hmem, ?_, fun hl => absurd hl hlen1⟩
      rcases hsel with rfl | rfl
      · exact Or.inl (by simp [select_one_group, hlen, hfor])
      · exact Or.inr (by simpa [select_one_group, hlen] using hfor)

theorem forall2_mem_left {α β : Type} (R : α → β → Prop) (l1 : List α) (l2 : List β)
    (h : List.Forall₂ R l1 l2) (a : α) (ha : a ∈ l1) : ∃ b ∈ l2, R a b := by
  induction h with
  | nil => simp at ha
  | @cons x y t1 t2 hr hrest ih =>
      rcases List.mem_cons.mp ha with rfl | ha2
      · exact ⟨y, List.mem_cons_self _ _, hr⟩
      · obtain ⟨b, hb, hbr⟩ := ih ha2
        exact ⟨b, List.mem_cons_of_mem _ hb, hbr⟩

theorem forall2_mem_right {α β : Type} (R : α → β → Prop) (l1 : List α) (l2 : List β)
    (h : List.Forall₂ R l1 l2) (b : β) (hb : b ∈ l2) : ∃ a ∈ l1, R a b := by
  induction h with
  | nil => simp at hb
  | @cons x y t1 t2 hr hrest ih =>
      rcases List.mem_cons.mp hb with rfl | hb2
      · exact ⟨x, List.mem_cons_self _ _, hr⟩
      · obtain ⟨a, ha, har⟩ := ih hb2
        exact ⟨a, List.mem_cons_of_mem _ ha, har⟩

/-- Rows pointwise matching a list of distinct Locations: filtering by any
of those Locations finds exactly one row. -/
theorem forall2_loc_filter (out : List (Nat × Row)) (Ls : List String)
    (hf : List.Forall₂ (fun (p : Nat × Row) L => p.2.Location = L) out Ls)
    (hnd : Ls.Nodup) :
    ∀ L ∈ Ls, (out.filter (fun p => p.2.Location == L)).length = 1 := by
  induction hf with
  | nil => simp
  | @cons p L0 out2 Ls2 hr hrest ih =>
      intro L hL
      rw [List.nodup_cons] at hnd
      rcases List.mem_cons.mp hL with rfl | hL2
      · rw [List.filter_cons_of_pos (by simp [hr])]
        have hnone : out2.filter (fun p => p.2.Location == L) = [] := by
          apply List.filter_eq_nil_iff.mpr
          intro q hq
          obtain ⟨Lq, hLq, hrel⟩ := forall2_mem_left _ _ _ hrest q hq
          have : Lq ≠ L := fun heq => hnd.1 (heq ▸ hLq)
          simp [hrel, this]
        simp [hnone]
      · have hne : L ≠ L0 := fun heq => hnd.1 (heq ▸ hL2)
        have hb : (p.2.Location == L) = false := by
          rw [hr, beq_eq_false_iff_ne]
          exact fun heq => hne heq.symm
        rw [List.filter_cons_of_neg (by simp [hb])]
        exact ih hnd.2 L hL2

theorem length_group_of_enum (L : String) (n : Nat) (df : List Row) :
    (group_of (enum_from n df) L).length =
      (df.filter (fun y => y.Location == L)).length := by
  induction df generalizing n with
  | nil => rfl
  | cons x xs ih =>
      simp only [group_of] at ih
      show (((n, x) :: enum_from (n + 1) xs).filter
          (fun p => p.2.Location == L)).length = _
      cases hq : x.Location == L with
      | true => simp [List.filter_cons, hq, ih (n + 1)]
      | false => simp [List.filter_cons, hq, ih (n + 1)]

theorem mem_enum_from_of_getElem (n i : Nat) (df : List Row) (x : Row)
    (h : df[i]? = some x) : (n + i, x) ∈ enum_from n df := by
  induction df generalizing n i with
  | nil => simp at h
  | cons y ys ih =>
      cases i with
      | zero =>
          simp at h
          subst h
          simp [enum_from]
      | succ k =>
          simp at h
          have hk := ih (n + 1) k h
          show (n + (k + 1), x) ∈ (n, y) :: enum_from (n + 1) ys
          have harith : n + (k + 1) = n + 1 + k := by omega
          rw [harith]
          exact List.mem_cons_of_mem _ hk

theorem mem_enum_from_of_mem (n : Nat) (df : List Row) (x : Row) (h : x ∈ df) :
    ∃ p ∈ enum_from n df, p.2 = x := by
  induction df generalizing n with
  | nil => simp at h
  | cons y ys ih =>
      rcases List.mem_cons.mp h with rfl | h2
      · exact ⟨(n, x), List.mem_cons_self _ _, rfl⟩
      · obtain ⟨p, hp, hpx⟩ := ih (n + 1) h2
        exact ⟨p, List.mem_cons_of_mem _ hp, hpx⟩

/-- The groupby loop over a list of distinct keys: selection succeeds, and
after de-duplication there is exactly one output row per key, pointwise a
member of that key's group (and the whole group when the group is a
singleton), provided no Uploaded_variation recurs across distinct groups or
in the seen set. -/
theorem select_loop_spec (g : List (Nat × Row))
    (hnd : g.Pairwise (fun a b => a.1 ≠ b.1))
    (huv : ∀ p ∈ g, ∀ q ∈ g, p.2.Location ≠ q.2.Location →
      p.2.Uploaded_variation ≠ q.2.Uploaded_variation) :
    ∀ (Ls : List String) (seen : List String), Ls.Nodup →
      (∀ L ∈ Ls, group_of g L ≠ []) →
      (∀ L ∈ Ls, ∀ p ∈ group_of g L, p.2.Uploaded_variation ∉ seen) →
      ∃ sel, select_groups (Ls.map (group_of g)) = .ok sel ∧
        List.Forall₂
          (fun (p : Nat × Row) L => p ∈ group_of g L ∧
            ((group_of g L).length = 1 → group_of g L = [p]))
          (dedup_by_uv seen sel) Ls := by
  intro Ls
  induction Ls with
  | nil =>
      exact fun seen _ _ _ => ⟨[], rfl, by simp [dedup_by_uv]⟩
  | cons L0 Ls2 ih =>
      intro seen hnodup hgne hseen
      rw [List.nodup_cons] at hnodup
      have hgnd : (group_of g L0).Pairwise (fun a b => a.1 ≠ b.1) :=
        hnd.filter _
      obtain ⟨p, hpmem, hpsel, hp1⟩ :=
        select_one_group_spec (group_of g L0) (hgne L0 (List.mem_cons_self _ _)) hgnd
      have hpuv : p.2.Uploaded_variation ∉ seen :=
        hseen L0 (List.mem_cons_self _ _) p hpmem
      have hrecseen : ∀ L ∈ Ls2, ∀ q ∈ group_of g L,
          q.2.Uploaded_variation ∉ p.2.Uploaded_variation :: seen := by
        intro L hL q hq hmem
        obtain ⟨hqg, hqloc⟩ := (mem_group_of g L q).mp hq
        obtain ⟨hpg, hploc⟩ := (mem_group_of g L0 p).mp hpmem
        have hLne : L ≠ L0 := fun heq => hnodup.1 (heq ▸ hL)
        have hquvne : q.2.Uploaded_variation ≠ p.2.Uploaded_variation :=
          huv q hqg p hpg (by rw [hqloc, hploc]; exact hLne)
        rcases List.mem_cons.mp hmem with h | h
        · exact hquvne h
        · exact hseen L (List.mem_cons_of_mem _ hL) q hq h
      obtain ⟨sel2, hsel2, hf2⟩ := ih (p.2.Uploaded_variation :: seen) hnodup.2
        (fun L hL => hgne L (List.mem_cons_of_mem _ hL)) hrecseen
      rcases hpsel with hone | hone
      · refine ⟨p :: sel2, ?_, ?_⟩
        · have := select_groups_cons_ok (group_of g L0) (Ls2.map (group_of g))
            [p] sel2 hone hsel2
          simpa using this
        · rw [dedup_by_uv_cons_keep seen p sel2 ((contains_eq_false_iff _ _).mpr hpuv)]
          exact List.Forall₂.cons ⟨hpmem, hp1⟩ hf2
      · refine ⟨p :: p :: sel2, ?_, ?_⟩
        · have := select_groups_cons_ok (group_of g L0) (Ls2.map (group_of g))
            [p, p] sel2 hone hsel2
          simpa using this
        · rw [dedup_by_uv_cons_keep seen p (p :: sel2)
            ((contains_eq_false_iff _ _).mpr hpuv)]
          rw [dedup_by_uv_cons_skip _ p sel2
            ((contains_iff_mem _ _).mpr (List.mem_cons_self _ _))]
          exact List.Forall₂.cons ⟨hpmem, hp1⟩ hf2

/-- C2 amended: for every nonempty input in which rows at different
Locations never share an Uploaded_variation value, the Selector's output
contains exactly one row for each distinct Location present in the input,
and for every Location group of size 1 the output contains exactly that
group's row, unchanged (the counterexample shows the claim fails without
the no-sharing hypothesis: cross-group de-duplication can delete a
Location's only row). -/
theorem c2_amended_one_row_per_location (df : List Row) (hne : df ≠ [])
    (huv : ∀ x ∈ df, ∀ y ∈ df, x.Location ≠ y.Location →
      x.Uploaded_variation ≠ y.Uploaded_variation) :
    ∃ out, select_highest_impact_rows df = .ok out ∧
      (∀ L, (∃ x ∈ df, x.Location = L) →
        (out.filter (fun p => p.2.Location == L)).length = 1) ∧
      (∀ i x, df[i]? = some x →
        (df.filter (fun y => y.Location == x.Location)).length = 1 →
        (i, x) ∈ out) := by
  have hnd : (enum_from 0 df).Pairwise (fun a b => a.1 ≠ b.1) := enum_from_pairwise 0 df
  have huv2 : ∀ p ∈ enum_from 0 df, ∀ q ∈ enum_from 0 df,
      p.2.Location ≠ q.2.Location →
      p.2.Uploaded_variation ≠ q.2.Uploaded_variation := fun p hp q hq =>
    huv p.2 (mem_enum_from_snd 0 df p hp) q.2 (mem_enum_from_snd 0 df q hq)
  have hgne : ∀ L ∈ sorted_locations (enum_from 0 df),
      group_of (enum_from 0 df) L ≠ [] := by
    intro L hL hnil
    obtain ⟨p, hp, hploc⟩ := (mem_sorted_locations _ L).mp hL
    have hmem : p ∈ group_of (enum_from 0 df) L :=
      (mem_group_of _ L p).mpr ⟨hp, hploc⟩
    rw [hnil] at hmem
    simp at hmem
  obtain ⟨sel, hsel, hf⟩ := select_loop_spec (enum_from 0 df) hnd huv2
    (sorted_locations (enum_from 0 df)) [] (sorted_locations_nodup _) hgne
    (by intro L hL p hp; simp)
  have hLsne : sorted_locations (enum_from 0 df) ≠ [] := by
    intro hLs
    cases df with
    | nil => exact hne rfl
    | cons x xs =>
        obtain ⟨p, hp, hpx⟩ := mem_enum_from_of_mem 0 (x :: xs) x (List.mem_cons_self _ _)
        have : p.2.Location ∈ sorted_locations (enum_from 0 (x :: xs)) :=
          (mem_sorted_locations _ _).mpr ⟨p, hp, rfl⟩
        rw [hLs] at this
        simp at this
  have hselne : sel ≠ [] := by
    intro hsnil
    subst hsnil
    have hlen := hf.length_eq
    simp [dedup_by_uv] at hlen
    exact hLsne (List.length_eq_zero.mp hlen.symm)
  have hout : select_highest_impact_rows df = .ok (dedup_by_uv [] sel) := by
    unfold select_highest_impact_rows selected_rows_of groupby_location
    rw [hsel, except_bind_ok]
    rw [if_neg (by
      cases sel with
      | nil => exact absurd rfl hselne
      | cons a t => simp)]
  refine ⟨dedup_by_uv [] sel, hout, ?_, ?_⟩
  · intro L hLpresent
    obtain ⟨x, hx, hxloc⟩ := hLpresent
    obtain ⟨p, hp, hpx⟩ := mem_enum_from_of_mem 0 df x hx
    have hLmem : L ∈ sorted_locations (enum_from 0 df) :=
      (mem_sorted_locations _ L).mpr ⟨p, hp, by rw [hpx, hxloc]⟩
    have hfloc : List.Forall₂ (fun (p : Nat × Row) L => p.2.Location = L)
        (dedup_by_uv [] sel) (sorted_locations (enum_from 0 df)) :=
      hf.imp (fun a b hab => ((mem_group_of _ b a).mp hab.1).2)
    exact forall2_loc_filter _ _ hfloc (sorted_locations_nodup _) L hLmem
  · intro i x hgety hlone
    have hmemg : (i, x) ∈ enum_from 0 df := by
      have := mem_enum_from_of_getElem 0 i df x hgety
      simpa using this
    have hxdf : x ∈ df := mem_enum_from_snd 0 df (i, x) hmemg
    have hLmem : x.Location ∈ sorted_locations (enum_from 0 df) :=
      (mem_sorted_locations _ _).mpr ⟨(i, x), hmemg, rfl⟩
    have hglen : (group_of (enum_from 0 df) x.Location).length = 1 := by
      rw [length_group_of_enum]
      exact hlone
    obtain ⟨p, hpout, hprel⟩ := forall2_mem_right _ _ _ hf x.Location hLmem
    have hgeq : group_of (enum_from 0 df) x.Location = [p] := hprel.2 hglen
    have hmemgrp : (i, x) ∈ group_of (enum_from 0 df) x.Location :=
      (mem_group_of _ _ _).mpr ⟨hmemg, rfl⟩
    rw [hgeq] at hmemgrp
    have : (i, x) = p := by simpa using hmemgrp
    rw [this]
    exact hpout

/-- Witness for C2 amended on a two-location frame with distinct
identifiers. -/
theorem c2_witness :
    ([mkRow "a" "1:100" [], mkRow "b" "2:200" []] : List Row) ≠ [] ∧
    (∀ x ∈ [mkRow "a" "1:100" [], mkRow "b" "2:200" []],
      ∀ y ∈ [mkRow "a" "1:100" [], mkRow "b" "2:200" []],
        x.Location ≠ y.Location → x.Uploaded_variation ≠ y.Uploaded_variation) ∧
    (∃ out, select_highest_impact_rows [mkRow "a" "1:100" [], mkRow "b" "2:200" []] =
        .ok out ∧
      (∀ L, (∃ x ∈ [mkRow "a" "1:100" [], mkRow "b" "2:200" []], x.Location = L) →
        (out.filter (fun p => p.2.Location == L)).length = 1) ∧
      (∀ i x, [mkRow "a" "1:100" [], mkRow "b" "2:200" []][i]? = some x →
        (([mkRow "a" "1:100" [], mkRow "b" "2:200" []] : List Row).filter
          (fun y => y.Location == x.Location)).length = 1 →
        (i, x) ∈ out)) :=
  ⟨by decide, by decide, c2_amended_one_row_per_location _ (by decide) (by decide)⟩
